import Mathlib

set_option maxHeartbeats 1000000

attribute [local semireducible] Rat.add Rat.mul Rat.inv Rat.sub

namespace Loan

/-! Shallow embedding of the amortization engine of script.js.
Numbers are modelled by exact rationals; the period loops of the three
repayment methods are modelled by fuel recursion, where the fuel plays the
role of the remaining iteration budget of the safety cap
maxIterations = totalPeriods * 2 + 10. -/

/-- The METHODS.AMORTIZED string constant of the source. -/
def methodAmortized : String := "amortized"

/-- The METHODS.EQUAL_PRINCIPAL string constant of the source. -/
def methodEqualPrincipal : String := "equal_principal"

/-- The METHODS.INTEREST_ONLY string constant of the source. -/
def methodInterestOnly : String := "interest_only"

/-- The parameter record handed to calculateLoan by the submit handler. -/
structure LoanParams where
  principal : ℚ
  annualRate : ℚ
  years : ℚ
  paymentsPerYear : ℕ
  method : String
  extraPayment : ℚ
deriving DecidableEq

/-- One row pushed onto the schedule array by the period loops. -/
structure ScheduleEntry where
  period : ℕ
  payment : ℚ
  principal : ℚ
  interest : ℚ
  balance : ℚ
deriving DecidableEq

/-- The method-tagged paymentInfo variant of the summary record. -/
inductive PaymentInfo where
  | amortized (paymentPerPeriod basePayment extraPayment : ℚ)
  | equalPrincipal (firstPayment lastPayment extraPayment : ℚ)
  | interestOnly (firstPayment lastPayment extraPayment : ℚ)
deriving DecidableEq

/-- The summary record of a calculation result. -/
structure Summary where
  paymentInfo : PaymentInfo
  totalPaid : ℚ
  totalInterest : ℚ
  payoffLabel : String
deriving DecidableEq

/-- The record returned by calculateLoan: schedule plus summary. -/
structure CalcResult where
  schedule : List ScheduleEntry
  summary : Summary
deriving DecidableEq

/-- JavaScript Math.round for the nonnegative inputs arising here:
round half away from zero, i.e. floor of x + 1/2 (ties toward plus
infinity). -/
def jsRound (q : ℚ) : ℤ := ⌊q + 1/2⌋

/-- periodicRate of the three calculate functions:
annualRate greater than 0 gives annualRate / 100 / paymentsPerYear, else 0. -/
def periodicRate (p : LoanParams) : ℚ :=
  if 0 < p.annualRate then p.annualRate / 100 / (p.paymentsPerYear : ℚ) else 0

/-- totalPeriods of the three calculate functions:
Math.max(1, Math.round(years * paymentsPerYear)). -/
def totalPeriods (p : LoanParams) : ℕ :=
  (max 1 (jsRound (p.years * (p.paymentsPerYear : ℚ)))).toNat

/-- basePayment of calculateAmortizedLoan: principal / totalPeriods when the
periodic rate is 0, otherwise the annuity formula
principal * rate / (1 - (1 + rate) ^ (-totalPeriods)). -/
def basePaymentOf (p : LoanParams) : ℚ :=
  if periodicRate p = 0 then p.principal / (totalPeriods p : ℚ)
  else p.principal * periodicRate p /
    (1 - (1 + periodicRate p) ^ (-(totalPeriods p : ℤ)))

/-- frequencyLabels lookup with the fallback label used by formatPayoffTime. -/
def frequencyLabel (ppy : ℕ) : String :=
  if ppy = 12 then "月" else if ppy = 26 then "两周"
  else if ppy = 52 then "周" else "期"

/-- formatPayoffTime of the source: whole years by integer division,
remainder labelled by frequency, and a distinct label when both are zero. -/
def formatPayoffTime (periods ppy : ℕ) : String :=
  let years := periods / ppy
  let remainder := periods % ppy
  if years = 0 ∧ remainder = 0 then "不足一个周期"
  else
    String.join
      ((if 0 < years then [toString years ++ "年"] else []) ++
        (if 0 < remainder then
          [if ppy = 12 then toString remainder ++ "个月"
           else if ppy = 26 then toString remainder ++ "个两周期"
           else if ppy = 52 then toString remainder ++ "周"
           else toString remainder ++ frequencyLabel ppy]
         else []))

/-- State of the local loop variables at exit of a period loop: the schedule
array together with balance, period, totalInterest and totalPaid. -/
structure LoopResult where
  schedule : List ScheduleEntry
  balance : ℚ
  period : ℕ
  totalInterest : ℚ
  totalPaid : ℚ
deriving DecidableEq

/-- Interest accrued by one period on balance b: literally 0 when the
periodic rate is 0, otherwise b * rate (the ternary of the source). -/
def periodInterest (rate b : ℚ) : ℚ := if rate = 0 then 0 else b * rate

/-- Principal portion of one amortized period on balance b: the payment is
min of paymentWithExtra and balance plus interest, the principal portion is
payment minus interest, re-capped at the full balance when it exceeds it. -/
def amortPP (rate pwe b : ℚ) : ℚ :=
  if b < min pwe (b + periodInterest rate b) - periodInterest rate b then b
  else min pwe (b + periodInterest rate b) - periodInterest rate b

/-- Payment of one amortized period on balance b, after the re-cap of the
principal portion. -/
def amortPay (rate pwe b : ℚ) : ℚ :=
  if b < min pwe (b + periodInterest rate b) - periodInterest rate b then
    b + periodInterest rate b
  else min pwe (b + periodInterest rate b)

/-- The while loop of calculateAmortizedLoan. The fuel argument is the number
of loop iterations still allowed by the safety cap. -/
def amortLoop (rate pwe : ℚ) : ℕ → ℚ → ℕ → ℚ → ℚ → LoopResult
  | 0, balance, period, ti, tp => ⟨[], balance, period, ti, tp⟩
  | fuel + 1, balance, period, ti, tp =>
    if 0 < balance then
      let q := period + 1
      let interest := periodInterest rate balance
      let principalPaid := amortPP rate pwe balance
      let payment := amortPay rate pwe balance
      let balance2 := max 0 (balance - principalPaid)
      let entry : ScheduleEntry := ⟨q, payment, principalPaid, interest, balance2⟩
      if balance2 ≤ 1/100 then ⟨[entry], 0, q, ti + interest, tp + payment⟩
      else
        let r := amortLoop rate pwe fuel balance2 q (ti + interest) (tp + payment)
        ⟨entry :: r.schedule, r.balance, r.period, r.totalInterest, r.totalPaid⟩
    else ⟨[], balance, period, ti, tp⟩

/-- calculateAmortizedLoan of the source. -/
def calculateAmortizedLoan (p : LoanParams) : CalcResult :=
  let rate := periodicRate p
  let n := totalPeriods p
  let basePayment := basePaymentOf p
  let pwe := basePayment + p.extraPayment
  let r := amortLoop rate pwe (n * 2 + 10) p.principal 0 0 0
  ⟨r.schedule,
    ⟨PaymentInfo.amortized pwe basePayment p.extraPayment,
      r.totalPaid, r.totalInterest,
      formatPayoffTime r.period p.paymentsPerYear⟩⟩

/-- Principal portion of one equal principal period on balance b: the
constant base principal plus extra payment, capped at the full balance. -/
def equalPP (basePP e b : ℚ) : ℚ := if b < basePP + e then b else basePP + e

/-- The while loop of calculateEqualPrincipalLoan. -/
def equalLoop (rate basePP e : ℚ) : ℕ → ℚ → ℕ → ℚ → ℚ → LoopResult
  | 0, balance, period, ti, tp => ⟨[], balance, period, ti, tp⟩
  | fuel + 1, balance, period, ti, tp =>
    if 0 < balance then
      let q := period + 1
      let interest := periodInterest rate balance
      let pp := equalPP basePP e balance
      let payment := pp + interest
      let balance2 := max 0 (balance - pp)
      let entry : ScheduleEntry := ⟨q, payment, pp, interest, balance2⟩
      if balance2 ≤ 1/100 then ⟨[entry], 0, q, ti + interest, tp + payment⟩
      else
        let r := equalLoop rate basePP e fuel balance2 q (ti + interest) (tp + payment)
        ⟨entry :: r.schedule, r.balance, r.period, r.totalInterest, r.totalPaid⟩
    else ⟨[], balance, period, ti, tp⟩

/-- calculateEqualPrincipalLoan of the source. -/
def calculateEqualPrincipalLoan (p : LoanParams) : CalcResult :=
  let rate := periodicRate p
  let n := totalPeriods p
  let basePP := p.principal / (n : ℚ)
  let r := equalLoop rate basePP p.extraPayment (n * 2 + 10) p.principal 0 0 0
  let firstPayment := ((r.schedule.head?.map ScheduleEntry.payment).getD 0)
  let lastPayment := ((r.schedule.getLast?.map ScheduleEntry.payment).getD 0)
  ⟨r.schedule,
    ⟨PaymentInfo.equalPrincipal firstPayment lastPayment p.extraPayment,
      r.totalPaid, r.totalInterest,
      formatPayoffTime r.period p.paymentsPerYear⟩⟩

/-- fullYears of calculateInterestOnlyLoan. -/
def fullYearsOf (p : LoanParams) : ℕ := totalPeriods p / p.paymentsPerYear

/-- remainderPeriods of calculateInterestOnlyLoan. -/
def remainderPeriodsOf (p : LoanParams) : ℕ := totalPeriods p % p.paymentsPerYear

/-- annualRepaymentCount of calculateInterestOnlyLoan. -/
def annualRepaymentCountOf (p : LoanParams) : ℕ :=
  max 1 (fullYearsOf p + if 0 < remainderPeriodsOf p then 1 else 0)

/-- plannedAnnualPrincipal of calculateInterestOnlyLoan. -/
def plannedAnnualPrincipalOf (p : LoanParams) : ℚ :=
  p.principal / (annualRepaymentCountOf p : ℚ)

/-- Scheduled principal portion of interest only period q on balance b: the
planned annual principal capped at the balance when q is an end of year
(q divisible by ppy) or the nominal final period n, otherwise 0. -/
def ioScheduledPP (planned b : ℚ) (q n ppy : ℕ) : ℚ :=
  if q % ppy = 0 ∨ q = n then min planned b else 0

/-- Principal portion of interest only period q on balance b: the scheduled
portion plus the extra payment capped at what is left of the balance. -/
def ioPP (planned e b : ℚ) (q n ppy : ℕ) : ℚ :=
  if 0 < e ∧ 0 < b - ioScheduledPP planned b q n ppy then
    ioScheduledPP planned b q n ppy + min e (b - ioScheduledPP planned b q n ppy)
  else ioScheduledPP planned b q n ppy

/-- The while loop of calculateInterestOnlyLoan: principal is repaid at each
end of year (period divisible by paymentsPerYear) and at the nominal final
period, with any extra payment applied every period on top. -/
def ioLoop (rate planned e : ℚ) (n ppy : ℕ) : ℕ → ℚ → ℕ → ℚ → ℚ → LoopResult
  | 0, balance, period, ti, tp => ⟨[], balance, period, ti, tp⟩
  | fuel + 1, balance, period, ti, tp =>
    if 0 < balance then
      let q := period + 1
      let interest := periodInterest rate balance
      let pp := ioPP planned e balance q n ppy
      let payment := interest + pp
      let balance2 := max 0 (balance - pp)
      let entry : ScheduleEntry := ⟨q, payment, pp, interest, balance2⟩
      if balance2 ≤ 1/100 then ⟨[entry], 0, q, ti + interest, tp + payment⟩
      else
        let r := ioLoop rate planned e n ppy fuel balance2 q (ti + interest) (tp + payment)
        ⟨entry :: r.schedule, r.balance, r.period, r.totalInterest, r.totalPaid⟩
    else ⟨[], balance, period, ti, tp⟩

/-- calculateInterestOnlyLoan of the source. -/
def calculateInterestOnlyLoan (p : LoanParams) : CalcResult :=
  let rate := periodicRate p
  let n := totalPeriods p
  let planned := plannedAnnualPrincipalOf p
  let r := ioLoop rate planned p.extraPayment n p.paymentsPerYear
    (n * 2 + 10) p.principal 0 0 0
  let firstPayment := ((r.schedule.head?.map ScheduleEntry.payment).getD 0)
  let lastPayment := ((r.schedule.getLast?.map ScheduleEntry.payment).getD 0)
  ⟨r.schedule,
    ⟨PaymentInfo.interestOnly firstPayment lastPayment p.extraPayment,
      r.totalPaid, r.totalInterest,
      formatPayoffTime r.period p.paymentsPerYear⟩⟩

/-- calculateLoan of the source: dispatch on the method string, any value
other than the equal principal and interest only enumerants falls through to
the amortized algorithm. -/
def calculateLoan (p : LoanParams) : CalcResult :=
  if p.method = methodEqualPrincipal then calculateEqualPrincipalLoan p
  else if p.method = methodInterestOnly then calculateInterestOnlyLoan p
  else calculateAmortizedLoan p

/-- The module level mutable variables lastSchedule and lastSummary of the
UI layer, the only state retained across submit events. -/
structure EngineState where
  lastSchedule : List ScheduleEntry
  lastSummary : Option Summary
deriving DecidableEq

/-- One submit event after validation passes: the calculation result is
computed from the parameters alone and the retained state is overwritten
with the fresh result. -/
def submitCalc (_s : EngineState) (p : LoanParams) : CalcResult × EngineState :=
  let c := calculateLoan p
  (c, ⟨c.schedule, some c.summary⟩)

/-- The input contract of the engine as stated by the validation layer:
positive principal, rate in [0,100], positive years, nonnegative extra
payment, frequency one of 12, 26, 52. -/
abbrev ValidParams (p : LoanParams) : Prop :=
  0 < p.principal ∧ 0 ≤ p.annualRate ∧ p.annualRate ≤ 100 ∧ 0 < p.years ∧
    0 ≤ p.extraPayment ∧
    (p.paymentsPerYear = 12 ∨ p.paymentsPerYear = 26 ∨ p.paymentsPerYear = 52)

/-- Sum of the principal portions of a schedule. -/
def sumPrincipal (l : List ScheduleEntry) : ℚ :=
  (l.map ScheduleEntry.principal).sum

/-- Balance recorded in the last schedule entry, with a default value for the
empty schedule. -/
def lastBalD (b : ℚ) (l : List ScheduleEntry) : ℚ :=
  (l.getLastD ⟨0, 0, 0, 0, b⟩).balance

/-- Number of periods in [1, p] at which the interest only method schedules a
principal repayment: multiples of ppy together with the nominal final
period n. -/
def eventsUpTo (ppy n p : ℕ) : ℕ :=
  match p with
  | 0 => 0
  | q + 1 => eventsUpTo ppy n q + (if (q + 1) % ppy = 0 ∨ q + 1 = n then 1 else 0)

/-- The amortized payment always equals interest plus principal portion. -/
theorem amortPay_eq (rate pwe b : ℚ) :
    amortPay rate pwe b = periodInterest rate b + amortPP rate pwe b := by
  rw [amortPay, amortPP]
  split_ifs with h
  · ring
  · ring

/-- The amortized principal portion never exceeds the balance. -/
theorem amortPP_le (rate pwe b : ℚ) : amortPP rate pwe b ≤ b := by
  rw [amortPP]
  split_ifs with h
  · exact le_refl b
  · exact not_lt.mp h

/-- Interest of a period is nonnegative on a nonnegative balance. -/
theorem periodInterest_nonneg (rate b : ℚ) (hr : 0 ≤ rate) (hb : 0 ≤ b) :
    0 ≤ periodInterest rate b := by
  rw [periodInterest]
  split_ifs
  · exact le_refl 0
  · exact mul_nonneg hb hr

/-- Interest of a period is at most pwe when balance * rate is at most pwe. -/
theorem periodInterest_le (rate pwe b : ℚ) (hr : 0 ≤ rate) (hb : 0 ≤ b)
    (h : b * rate ≤ pwe) : periodInterest rate b ≤ pwe := by
  rw [periodInterest]
  split_ifs
  · linarith [mul_nonneg hb hr]
  · exact h

/-- Interest of a period is monotone in the balance. -/
theorem periodInterest_mono (rate : ℚ) (hr : 0 ≤ rate) {a b : ℚ} (h : a ≤ b) :
    periodInterest rate a ≤ periodInterest rate b := by
  rw [periodInterest, periodInterest]
  split_ifs
  · exact le_refl 0
  · exact mul_le_mul_of_nonneg_right h hr

/-- The amortized principal portion is nonnegative when the payment covers
the interest on the current balance. -/
theorem amortPP_nonneg (rate pwe b : ℚ) (hr : 0 ≤ rate) (hb : 0 ≤ b)
    (h : b * rate ≤ pwe) : 0 ≤ amortPP rate pwe b := by
  rw [amortPP]
  have hi0 : 0 ≤ periodInterest rate b := periodInterest_nonneg rate b hr hb
  have hile : periodInterest rate b ≤ pwe := periodInterest_le rate pwe b hr hb h
  split_ifs with hsp
  · exact hb
  · have hmin : periodInterest rate b ≤ min pwe (b + periodInterest rate b) :=
      le_min hile (by linarith)
    linarith

/-- The equal principal portion never exceeds the balance. -/
theorem equalPP_le (basePP e b : ℚ) : equalPP basePP e b ≤ b := by
  rw [equalPP]
  split_ifs with h
  · exact le_refl b
  · exact not_lt.mp h

/-- The equal principal portion is nonnegative when base plus extra is. -/
theorem equalPP_nonneg (basePP e b : ℚ) (hb : 0 ≤ b) (h : 0 ≤ basePP + e) :
    0 ≤ equalPP basePP e b := by
  rw [equalPP]
  split_ifs
  · exact hb
  · exact h

/-- The scheduled interest only principal portion is nonnegative. -/
theorem ioScheduledPP_nonneg (planned b : ℚ) (q n ppy : ℕ)
    (hp : 0 ≤ planned) (hb : 0 ≤ b) : 0 ≤ ioScheduledPP planned b q n ppy := by
  rw [ioScheduledPP]
  split_ifs
  · exact le_min hp hb
  · exact le_refl 0

/-- The scheduled interest only principal portion never exceeds the
balance. -/
theorem ioScheduledPP_le (planned b : ℚ) (q n ppy : ℕ) (hb : 0 ≤ b) :
    ioScheduledPP planned b q n ppy ≤ b := by
  rw [ioScheduledPP]
  split_ifs
  · exact min_le_right planned b
  · exact hb

/-- The interest only principal portion is nonnegative. -/
theorem ioPP_nonneg (planned e b : ℚ) (q n ppy : ℕ)
    (hp : 0 ≤ planned) (hb : 0 ≤ b) : 0 ≤ ioPP planned e b q n ppy := by
  rw [ioPP]
  have h1 := ioScheduledPP_nonneg planned b q n ppy hp hb
  split_ifs with hc
  · have h2 : (0:ℚ) ≤ min e (b - ioScheduledPP planned b q n ppy) :=
      le_min (le_of_lt hc.1) (le_of_lt hc.2)
    linarith
  · exact h1

/-- The interest only principal portion never exceeds the balance. -/
theorem ioPP_le (planned e b : ℚ) (q n ppy : ℕ) (hb : 0 ≤ b) :
    ioPP planned e b q n ppy ≤ b := by
  rw [ioPP]
  have h1 := ioScheduledPP_le planned b q n ppy hb
  split_ifs with hc
  · have h2 : min e (b - ioScheduledPP planned b q n ppy) ≤
        b - ioScheduledPP planned b q n ppy := min_le_right _ _
    linarith
  · exact h1

/-- The clamped new balance never exceeds the old nonnegative balance when
the principal portion is nonnegative. -/
theorem clampedBalance_le (b pp : ℚ) (hb : 0 ≤ b) (hpp : 0 ≤ pp) :
    max 0 (b - pp) ≤ b :=
  max_le hb (by linarith)

/-- The clamped new balance equals the exact difference when the principal
portion does not exceed the balance. -/
theorem clampedBalance_eq (b pp : ℚ) (h : pp ≤ b) :
    max 0 (b - pp) = b - pp :=
  max_eq_right (by linarith)

/-- Every iteration of the amortized loop adds payment to totalPaid,
interest to totalInterest and records payment minus interest as the
principal portion, so the difference of the accumulators equals the sum of
principal portions of the produced schedule. -/
theorem amortLoop_paid_interest (rate pwe : ℚ) :
    ∀ (fuel : ℕ) (b : ℚ) (period : ℕ) (ti tp : ℚ),
      (amortLoop rate pwe fuel b period ti tp).totalPaid -
          (amortLoop rate pwe fuel b period ti tp).totalInterest =
        (tp - ti) + sumPrincipal (amortLoop rate pwe fuel b period ti tp).schedule := by
  intro fuel
  induction fuel with
  | zero =>
    intro b period ti tp
    simp [amortLoop, sumPrincipal]
  | succ fuel ih =>
    intro b period ti tp
    simp only [amortLoop]
    split_ifs
    all_goals simp [sumPrincipal, ih, amortPay_eq]
    all_goals ring

/-- The accumulator identity of the equal principal loop: totalPaid minus
totalInterest equals the sum of principal portions of the schedule. -/
theorem equalLoop_paid_interest (rate basePP e : ℚ) :
    ∀ (fuel : ℕ) (b : ℚ) (period : ℕ) (ti tp : ℚ),
      (equalLoop rate basePP e fuel b period ti tp).totalPaid -
          (equalLoop rate basePP e fuel b period ti tp).totalInterest =
        (tp - ti) + sumPrincipal (equalLoop rate basePP e fuel b period ti tp).schedule := by
  intro fuel
  induction fuel with
  | zero =>
    intro b period ti tp
    simp [equalLoop, sumPrincipal]
  | succ fuel ih =>
    intro b period ti tp
    simp only [equalLoop]
    split_ifs
    all_goals simp [sumPrincipal, ih]
    all_goals ring

/-- The accumulator identity of the interest only loop: totalPaid minus
totalInterest equals the sum of principal portions of the schedule. -/
theorem ioLoop_paid_interest (rate planned e : ℚ) (n ppy : ℕ) :
    ∀ (fuel : ℕ) (b : ℚ) (period : ℕ) (ti tp : ℚ),
      (ioLoop rate planned e n ppy fuel b period ti tp).totalPaid -
          (ioLoop rate planned e n ppy fuel b period ti tp).totalInterest =
        (tp - ti) + sumPrincipal (ioLoop rate planned e n ppy fuel b period ti tp).schedule := by
  intro fuel
  induction fuel with
  | zero =>
    intro b period ti tp
    simp [ioLoop, sumPrincipal]
  | succ fuel ih =>
    intro b period ti tp
    simp only [ioLoop]
    split_ifs
    all_goals simp [sumPrincipal, ih]
    all_goals ring

/-- Balances recorded by the amortized loop are bounded by the incoming
balance and non increasing along the schedule, provided the payment with
extra covers the interest on the incoming balance. -/
theorem amortLoop_balance_chain (rate pwe : ℚ) (hr : 0 ≤ rate) :
    ∀ (fuel : ℕ) (b : ℚ) (period : ℕ) (ti tp : ℚ), 0 ≤ b → b * rate ≤ pwe →
      List.Chain' (fun x y => y.balance ≤ x.balance)
          (amortLoop rate pwe fuel b period ti tp).schedule ∧
        ∀ y ∈ (amortLoop rate pwe fuel b period ti tp).schedule, y.balance ≤ b := by
  intro fuel
  induction fuel with
  | zero =>
    intro b period ti tp hb0 hble
    simp [amortLoop]
  | succ fuel ih =>
    intro b period ti tp hb0 hble
    by_cases hb : 0 < b
    · have hpp0 : 0 ≤ amortPP rate pwe b := amortPP_nonneg rate pwe b hr hb0 hble
      have hb2le : max 0 (b - amortPP rate pwe b) ≤ b := clampedBalance_le _ _ hb0 hpp0
      rw [amortLoop, if_pos hb]
      dsimp only
      by_cases hbr : max 0 (b - amortPP rate pwe b) ≤ 1/100
      · rw [if_pos hbr]
        refine ⟨List.chain'_singleton _, ?_⟩
        intro y hy
        rw [List.mem_singleton] at hy
        subst hy
        exact hb2le
      · rw [if_neg hbr]
        have hb20 : 0 ≤ max 0 (b - amortPP rate pwe b) := le_max_left 0 _
        have hble2 : (max 0 (b - amortPP rate pwe b)) * rate ≤ pwe :=
          le_trans (mul_le_mul_of_nonneg_right hb2le hr) hble
        obtain ⟨ch, hall⟩ := ih (max 0 (b - amortPP rate pwe b)) (period + 1)
          (ti + periodInterest rate b) (tp + amortPay rate pwe b) hb20 hble2
        constructor
        · rw [List.chain'_cons']
          refine ⟨?_, ch⟩
          intro y hy
          exact hall y (List.mem_of_mem_head? hy)
        · intro y hy
          rcases List.mem_cons.mp hy with h | h
          · subst h
            exact hb2le
          · exact le_trans (hall y h) hb2le
    · rw [amortLoop, if_neg hb]
      simp

/-- The equal principal portion is the min of the balance and the constant
base plus extra. -/
theorem equalPP_eq_min (basePP e b : ℚ) :
    equalPP basePP e b = min b (basePP + e) := by
  rw [equalPP]
  split_ifs with h
  · exact (min_eq_left h.le).symm
  · exact (min_eq_right (not_lt.mp h)).symm

/-- The equal principal portion is monotone in the balance. -/
theorem equalPP_mono (basePP e : ℚ) {a b : ℚ} (h : a ≤ b) :
    equalPP basePP e a ≤ equalPP basePP e b := by
  rw [equalPP_eq_min, equalPP_eq_min]
  exact min_le_min h (le_refl _)

/-- Balances and payments recorded by the equal principal loop are non
increasing along the schedule; balances are bounded by the incoming balance
and payments by the payment computed on the incoming balance. -/
theorem equalLoop_chains (rate basePP e : ℚ) (hr : 0 ≤ rate) (hpe : 0 ≤ basePP + e) :
    ∀ (fuel : ℕ) (b : ℚ) (period : ℕ) (ti tp : ℚ), 0 ≤ b →
      (List.Chain' (fun x y => y.balance ≤ x.balance)
          (equalLoop rate basePP e fuel b period ti tp).schedule ∧
        ∀ y ∈ (equalLoop rate basePP e fuel b period ti tp).schedule, y.balance ≤ b) ∧
      (List.Chain' (fun x y => y.payment ≤ x.payment)
          (equalLoop rate basePP e fuel b period ti tp).schedule ∧
        ∀ y ∈ (equalLoop rate basePP e fuel b period ti tp).schedule,
          y.payment ≤ equalPP basePP e b + periodInterest rate b) := by
  intro fuel
  induction fuel with
  | zero =>
    intro b period ti tp hb0
    simp [equalLoop]
  | succ fuel ih =>
    intro b period ti tp hb0
    by_cases hb : 0 < b
    · have hpp0 : 0 ≤ equalPP basePP e b := equalPP_nonneg basePP e b hb0 hpe
      have hb2le : max 0 (b - equalPP basePP e b) ≤ b := clampedBalance_le _ _ hb0 hpp0
      rw [equalLoop, if_pos hb]
      dsimp only
      by_cases hbr : max 0 (b - equalPP basePP e b) ≤ 1/100
      · rw [if_pos hbr]
        refine ⟨⟨List.chain'_singleton _, ?_⟩, List.chain'_singleton _, ?_⟩
        · intro y hy
          rw [List.mem_singleton] at hy
          subst hy
          exact hb2le
        · intro y hy
          rw [List.mem_singleton] at hy
          subst hy
          exact le_refl _
      · rw [if_neg hbr]
        have hb20 : 0 ≤ max 0 (b - equalPP basePP e b) := le_max_left 0 _
        have hpayle : equalPP basePP e (max 0 (b - equalPP basePP e b)) +
            periodInterest rate (max 0 (b - equalPP basePP e b)) ≤
              equalPP basePP e b + periodInterest rate b :=
          add_le_add (equalPP_mono basePP e hb2le) (periodInterest_mono rate hr hb2le)
        obtain ⟨⟨chb, hballb⟩, chp, hpallp⟩ := ih (max 0 (b - equalPP basePP e b))
          (period + 1) (ti + periodInterest rate b) (tp + (equalPP basePP e b + periodInterest rate b)) hb20
        refine ⟨⟨?_, ?_⟩, ?_, ?_⟩
        · rw [List.chain'_cons']
          refine ⟨?_, chb⟩
          intro y hy
          exact hballb y (List.mem_of_mem_head? hy)
        · intro y hy
          rcases List.mem_cons.mp hy with h | h
          · subst h
            exact hb2le
          · exact le_trans (hballb y h) hb2le
        · rw [List.chain'_cons']
          refine ⟨?_, chp⟩
          intro y hy
          exact le_trans (hpallp y (List.mem_of_mem_head? hy)) hpayle
        · intro y hy
          rcases List.mem_cons.mp hy with h | h
          · subst h
            exact le_refl _
          · exact le_trans (hpallp y h) hpayle
    · rw [equalLoop, if_neg hb]
      simp

/-- Balances recorded by the interest only loop are bounded by the incoming
balance and non increasing along the schedule. -/
theorem ioLoop_balance_chain (rate planned e : ℚ) (n ppy : ℕ) (hp : 0 ≤ planned) :
    ∀ (fuel : ℕ) (b : ℚ) (period : ℕ) (ti tp : ℚ), 0 ≤ b →
      List.Chain' (fun x y => y.balance ≤ x.balance)
          (ioLoop rate planned e n ppy fuel b period ti tp).schedule ∧
        ∀ y ∈ (ioLoop rate planned e n ppy fuel b period ti tp).schedule, y.balance ≤ b := by
  intro fuel
  induction fuel with
  | zero =>
    intro b period ti tp hb0
    simp [ioLoop]
  | succ fuel ih =>
    intro b period ti tp hb0
    by_cases hb : 0 < b
    · have hpp0 : 0 ≤ ioPP planned e b (period + 1) n ppy :=
        ioPP_nonneg planned e b (period + 1) n ppy hp hb0
      have hb2le : max 0 (b - ioPP planned e b (period + 1) n ppy) ≤ b :=
        clampedBalance_le _ _ hb0 hpp0
      rw [ioLoop, if_pos hb]
      dsimp only
      by_cases hbr : max 0 (b - ioPP planned e b (period + 1) n ppy) ≤ 1/100
      · rw [if_pos hbr]
        refine ⟨List.chain'_singleton _, ?_⟩
        intro y hy
        rw [List.mem_singleton] at hy
        subst hy
        exact hb2le
      · rw [if_neg hbr]
        have hb20 : 0 ≤ max 0 (b - ioPP planned e b (period + 1) n ppy) := le_max_left 0 _
        obtain ⟨ch, hall⟩ := ih (max 0 (b - ioPP planned e b (period + 1) n ppy))
          (period + 1) (ti + periodInterest rate b)
          (tp + (periodInterest rate b + ioPP planned e b (period + 1) n ppy)) hb20
        constructor
        · rw [List.chain'_cons']
          refine ⟨?_, ch⟩
          intro y hy
          exact hall y (List.mem_of_mem_head? hy)
        · intro y hy
          rcases List.mem_cons.mp hy with h | h
          · subst h
            exact hb2le
          · exact le_trans (hall y h) hb2le
    · rw [ioLoop, if_neg hb]
      simp

/-- The last entry of a nonempty schedule does not depend on the default. -/
theorem getLastD_irrel (l : List ScheduleEntry) (h : l ≠ []) (d1 d2 : ScheduleEntry) :
    l.getLastD d1 = l.getLastD d2 := by
  cases l with
  | nil => exact absurd rfl h
  | cons a t => rw [List.getLastD_cons, List.getLastD_cons]

/-- The principal portions recorded by the amortized loop sum to the
incoming balance minus the balance recorded in the last entry. -/
theorem amortLoop_sum_principal (rate pwe : ℚ) :
    ∀ (fuel : ℕ) (b : ℚ) (period : ℕ) (ti tp : ℚ),
      sumPrincipal (amortLoop rate pwe fuel b period ti tp).schedule =
        b - lastBalD b (amortLoop rate pwe fuel b period ti tp).schedule := by
  intro fuel
  induction fuel with
  | zero =>
    intro b period ti tp
    simp [amortLoop, sumPrincipal, lastBalD]
  | succ fuel ih =>
    intro b period ti tp
    by_cases hb : 0 < b
    · have hexact : max 0 (b - amortPP rate pwe b) = b - amortPP rate pwe b :=
        clampedBalance_eq _ _ (amortPP_le rate pwe b)
      rw [amortLoop, if_pos hb]
      dsimp only
      by_cases hbr : max 0 (b - amortPP rate pwe b) ≤ 1/100
      · rw [if_pos hbr]
        simp [sumPrincipal, lastBalD, hexact]
      · rw [if_neg hbr]
        dsimp only
        have hIH := ih (max 0 (b - amortPP rate pwe b)) (period + 1)
          (ti + periodInterest rate b) (tp + amortPay rate pwe b)
        rcases hrest : (amortLoop rate pwe fuel (max 0 (b - amortPP rate pwe b)) (period + 1)
            (ti + periodInterest rate b) (tp + amortPay rate pwe b)).schedule with _ | ⟨x, t⟩
        · simp only [sumPrincipal, lastBalD, List.map_cons, List.map_nil, List.sum_cons,
            List.sum_nil, List.getLastD_cons, List.getLastD_nil]
          rw [hexact]
          ring
        · rw [hrest] at hIH
          simp only [sumPrincipal, List.map_cons, List.sum_cons, lastBalD,
            List.getLastD_cons] at hIH ⊢
          rw [hexact] at hIH
          linarith [hIH]
    · rw [amortLoop, if_neg hb]
      simp [sumPrincipal, lastBalD]

/-- The principal portions recorded by the equal principal loop sum to the
incoming balance minus the balance recorded in the last entry. -/
theorem equalLoop_sum_principal (rate basePP e : ℚ) :
    ∀ (fuel : ℕ) (b : ℚ) (period : ℕ) (ti tp : ℚ),
      sumPrincipal (equalLoop rate basePP e fuel b period ti tp).schedule =
        b - lastBalD b (equalLoop rate basePP e fuel b period ti tp).schedule := by
  intro fuel
  induction fuel with
  | zero =>
    intro b period ti tp
    simp [equalLoop, sumPrincipal, lastBalD]
  | succ fuel ih =>
    intro b period ti tp
    by_cases hb : 0 < b
    · have hexact : max 0 (b - equalPP basePP e b) = b - equalPP basePP e b :=
        clampedBalance_eq _ _ (equalPP_le basePP e b)
      rw [equalLoop, if_pos hb]
      dsimp only
      by_cases hbr : max 0 (b - equalPP basePP e b) ≤ 1/100
      · rw [if_pos hbr]
        simp [sumPrincipal, lastBalD, hexact]
      · rw [if_neg hbr]
        dsimp only
        have hIH := ih (max 0 (b - equalPP basePP e b)) (period + 1)
          (ti + periodInterest rate b) (tp + (equalPP basePP e b + periodInterest rate b))
        rcases hrest : (equalLoop rate basePP e fuel (max 0 (b - equalPP basePP e b)) (period + 1)
            (ti + periodInterest rate b)
            (tp + (equalPP basePP e b + periodInterest rate b))).schedule with _ | ⟨x, t⟩
        · simp only [sumPrincipal, lastBalD, List.map_cons, List.map_nil, List.sum_cons,
            List.sum_nil, List.getLastD_cons, List.getLastD_nil]
          rw [hexact]
          ring
        · rw [hrest] at hIH
          simp only [sumPrincipal, List.map_cons, List.sum_cons, lastBalD,
            List.getLastD_cons] at hIH ⊢
          rw [hexact] at hIH
          linarith [hIH]
    · rw [equalLoop, if_neg hb]
      simp [sumPrincipal, lastBalD]

/-- The principal portions recorded by the interest only loop sum to the
incoming balance minus the balance recorded in the last entry. -/
theorem ioLoop_sum_principal (rate planned e : ℚ) (n ppy : ℕ) :
    ∀ (fuel : ℕ) (b : ℚ) (period : ℕ) (ti tp : ℚ),
      sumPrincipal (ioLoop rate planned e n ppy fuel b period ti tp).schedule =
        b - lastBalD b (ioLoop rate planned e n ppy fuel b period ti tp).schedule := by
  intro fuel
  induction fuel with
  | zero =>
    intro b period ti tp
    simp [ioLoop, sumPrincipal, lastBalD]
  | succ fuel ih =>
    intro b period ti tp
    by_cases hb : 0 < b
    · have hexact : max 0 (b - ioPP planned e b (period + 1) n ppy) =
          b - ioPP planned e b (period + 1) n ppy :=
        clampedBalance_eq _ _ (ioPP_le planned e b (period + 1) n ppy hb.le)
      rw [ioLoop, if_pos hb]
      dsimp only
      by_cases hbr : max 0 (b - ioPP planned e b (period + 1) n ppy) ≤ 1/100
      · rw [if_pos hbr]
        simp [sumPrincipal, lastBalD, hexact]
      · rw [if_neg hbr]
        dsimp only
        have hIH := ih (max 0 (b - ioPP planned e b (period + 1) n ppy)) (period + 1)
          (ti + periodInterest rate b)
          (tp + (periodInterest rate b + ioPP planned e b (period + 1) n ppy))
        rcases hrest : (ioLoop rate planned e n ppy fuel
            (max 0 (b - ioPP planned e b (period + 1) n ppy)) (period + 1)
            (ti + periodInterest rate b)
            (tp + (periodInterest rate b + ioPP planned e b (period + 1) n ppy))).schedule
            with _ | ⟨x, t⟩
        · simp only [sumPrincipal, lastBalD, List.map_cons, List.map_nil, List.sum_cons,
            List.sum_nil, List.getLastD_cons, List.getLastD_nil]
          rw [hexact]
          ring
        · rw [hrest] at hIH
          simp only [sumPrincipal, List.map_cons, List.sum_cons, lastBalD,
            List.getLastD_cons] at hIH ⊢
          rw [hexact] at hIH
          linarith [hIH]
    · rw [ioLoop, if_neg hb]
      simp [sumPrincipal, lastBalD]

/-- A finished run of a period loop on incoming balance b: the loop exited
through the payoff break (exit balance clamped to 0), produced at least one
entry, and the balance recorded in the last entry is a residue between 0 and
the payoff epsilon. -/
abbrev GoodRun (b : ℚ) (res : LoopResult) : Prop :=
  res.balance = 0 ∧ res.schedule ≠ [] ∧
    0 ≤ lastBalD b res.schedule ∧ lastBalD b res.schedule ≤ 1/100

/-- The last balance of a one entry schedule is that entry's field. -/
theorem lastBalD_singleton (b : ℚ) (e : ScheduleEntry) :
    lastBalD b [e] = e.balance := rfl

/-- Prepending an entry to a nonempty schedule does not change the last
balance, whatever the defaults. -/
theorem lastBalD_cons_of_ne_nil (b b2 : ℚ) (entry : ScheduleEntry)
    (l : List ScheduleEntry) (h : l ≠ []) :
    lastBalD b (entry :: l) = lastBalD b2 l := by
  cases l with
  | nil => exact absurd rfl h
  | cons x t =>
    rw [lastBalD, lastBalD]
    simp only [List.getLastD_cons]

/-- With a zero rate the amortized principal portion is just the payment
with extra capped at the balance. -/
theorem amortPP_zero_rate (pwe b : ℚ) : amortPP 0 pwe b = min pwe b := by
  rw [amortPP, periodInterest]
  simp only [eq_self_iff_true, if_true, add_zero, sub_zero]
  rw [if_neg (not_lt.mpr (min_le_right pwe b))]

/-- With a zero rate the amortized loop always finishes with a payoff: the
balance drops by min pwe balance every period, so pwe * fuel bounds the
payable balance. -/
theorem amortLoop_payoff_zero_rate (pwe : ℚ) :
    ∀ (fuel : ℕ) (b : ℚ) (period : ℕ) (ti tp : ℚ),
      0 < b → b ≤ pwe * (fuel : ℚ) →
      GoodRun b (amortLoop 0 pwe fuel b period ti tp) := by
  intro fuel
  induction fuel with
  | zero =>
    intro b period ti tp hb hfuel
    norm_num at hfuel
    linarith
  | succ fuel ih =>
    intro b period ti tp hb hfuel
    rw [amortLoop, if_pos hb]
    dsimp only
    rw [amortPP_zero_rate]
    by_cases hcap : b ≤ pwe
    · rw [min_eq_right hcap]
      have hb2 : max 0 (b - b) = 0 := by simp
      rw [hb2]
      rw [if_pos (by norm_num : (0:ℚ) ≤ 1/100)]
      exact ⟨rfl, by simp, by rw [lastBalD_singleton], by rw [lastBalD_singleton]; norm_num⟩
    · have hlt : pwe < b := not_le.mp hcap
      rw [min_eq_left hlt.le]
      have hb2 : max 0 (b - pwe) = b - pwe := max_eq_right (by linarith)
      rw [hb2]
      by_cases hbr : b - pwe ≤ 1/100
      · rw [if_pos hbr]
        exact ⟨rfl, by simp, by rw [lastBalD_singleton]; dsimp only; linarith,
          by rw [lastBalD_singleton]; exact hbr⟩
      · rw [if_neg hbr]
        have hfuel2 : b - pwe ≤ pwe * (fuel : ℚ) := by
          push_cast at hfuel
          linarith
        obtain ⟨g1, g2, g3, g4⟩ := ih (b - pwe) (period + 1) (ti + periodInterest 0 b)
          (tp + amortPay 0 pwe b) (by linarith) hfuel2
        refine ⟨g1, by simp, ?_, ?_⟩
        · rw [lastBalD_cons_of_ne_nil b (b - pwe) _ _ g2]
          exact g3
        · rw [lastBalD_cons_of_ne_nil b (b - pwe) _ _ g2]
          exact g4

/-- With a positive rate the clamped next balance of an amortized period is
either 0 (the payoff cap fired) or the uncapped value b(1+rate) - pwe. -/
theorem amort_balance2_cases (rate pwe b : ℚ) (hr : 0 < rate) :
    max 0 (b - amortPP rate pwe b) = 0 ∨
      (max 0 (b - amortPP rate pwe b) = b * (1 + rate) - pwe ∧
        0 < b * (1 + rate) - pwe) := by
  have hi : periodInterest rate b = b * rate := by
    rw [periodInterest, if_neg hr.ne']
  rw [amortPP, hi]
  split_ifs with hc
  · left
    simp
  · rcases le_total pwe (b + b * rate) with hmin | hmin
    · rw [min_eq_left hmin]
      have hkey : b - (pwe - b * rate) = b * (1 + rate) - pwe := by ring
      rw [hkey]
      rcases le_or_lt (b * (1 + rate) - pwe) 0 with h0 | h0
      · left
        exact max_eq_left h0
      · right
        exact ⟨max_eq_right h0.le, h0⟩
    · rw [min_eq_right hmin]
      left
      have hkey : b - (b + b * rate - b * rate) = 0 := by ring
      rw [hkey]
      simp

/-- With a positive rate the amortized loop finishes with a payoff whenever
the geometric bound of the uncapped trajectory allows it within the fuel:
the invariant b * rate * (1+rate)^fuel ≤ pwe * ((1+rate)^fuel - 1) is
preserved along the loop and forces a break before the fuel runs out. -/
theorem amortLoop_payoff_pos_rate (rate pwe : ℚ) (hr : 0 < rate) :
    ∀ (fuel : ℕ) (b : ℚ) (period : ℕ) (ti tp : ℚ),
      0 < b → b * rate * (1 + rate)^fuel ≤ pwe * ((1 + rate)^fuel - 1) →
      GoodRun b (amortLoop rate pwe fuel b period ti tp) := by
  intro fuel
  induction fuel with
  | zero =>
    intro b period ti tp hb hfuel
    norm_num at hfuel
    nlinarith
  | succ fuel ih =>
    intro b period ti tp hb hfuel
    rw [amortLoop, if_pos hb]
    dsimp only
    rcases amort_balance2_cases rate pwe b hr with hcase | ⟨hcase, hpos⟩
    · rw [hcase]
      rw [if_pos (by norm_num : (0:ℚ) ≤ 1/100)]
      exact ⟨rfl, by simp, by rw [lastBalD_singleton], by rw [lastBalD_singleton]; norm_num⟩
    · rw [hcase]
      by_cases hbr : b * (1 + rate) - pwe ≤ 1/100
      · rw [if_pos hbr]
        exact ⟨rfl, by simp, by rw [lastBalD_singleton]; dsimp only; linarith,
          by rw [lastBalD_singleton]; exact hbr⟩
      · rw [if_neg hbr]
        have hA : (0:ℚ) < (1 + rate)^fuel := by positivity
        have hfuel2 : (b * (1 + rate) - pwe) * rate * (1 + rate)^fuel ≤
            pwe * ((1 + rate)^fuel - 1) := by
          rw [pow_succ] at hfuel
          nlinarith [hfuel]
        obtain ⟨g1, g2, g3, g4⟩ := ih (b * (1 + rate) - pwe) (period + 1)
          (ti + periodInterest rate b) (tp + amortPay rate pwe b) hpos hfuel2
        refine ⟨g1, by simp, ?_, ?_⟩
        · rw [lastBalD_cons_of_ne_nil b (b * (1 + rate) - pwe) _ _ g2]
          exact g3
        · rw [lastBalD_cons_of_ne_nil b (b * (1 + rate) - pwe) _ _ g2]
          exact g4

/-- The equal principal loop finishes with a payoff as soon as the fuel
covers the balance at the constant reduction speed basePP + e. -/
theorem equalLoop_payoff (rate basePP e : ℚ) :
    ∀ (fuel : ℕ) (b : ℚ) (period : ℕ) (ti tp : ℚ),
      0 < b → b ≤ (basePP + e) * (fuel : ℚ) →
      GoodRun b (equalLoop rate basePP e fuel b period ti tp) := by
  intro fuel
  induction fuel with
  | zero =>
    intro b period ti tp hb hfuel
    norm_num at hfuel
    linarith
  | succ fuel ih =>
    intro b period ti tp hb hfuel
    rw [equalLoop, if_pos hb]
    dsimp only
    rw [equalPP_eq_min]
    by_cases hcap : b ≤ basePP + e
    · rw [min_eq_left hcap]
      have hb2 : max 0 (b - b) = 0 := by simp
      rw [hb2, if_pos (by norm_num : (0:ℚ) ≤ 1/100)]
      exact ⟨rfl, by simp, by rw [lastBalD_singleton], by rw [lastBalD_singleton]; norm_num⟩
    · have hlt : basePP + e < b := not_le.mp hcap
      rw [min_eq_right hlt.le]
      have hb2 : max 0 (b - (basePP + e)) = b - (basePP + e) := max_eq_right (by linarith)
      rw [hb2]
      by_cases hbr : b - (basePP + e) ≤ 1/100
      · rw [if_pos hbr]
        exact ⟨rfl, by simp, by rw [lastBalD_singleton]; dsimp only; linarith,
          by rw [lastBalD_singleton]; exact hbr⟩
      · rw [if_neg hbr]
        have hfuel2 : b - (basePP + e) ≤ (basePP + e) * (fuel : ℚ) := by
          push_cast at hfuel
          linarith
        obtain ⟨g1, g2, g3, g4⟩ := ih (b - (basePP + e)) (period + 1)
          (ti + periodInterest rate b) (tp + (basePP + e + periodInterest rate b))
          (by linarith) hfuel2
        refine ⟨g1, by simp, ?_, ?_⟩
        · rw [lastBalD_cons_of_ne_nil b (b - (basePP + e)) _ _ g2]
          exact g3
        · rw [lastBalD_cons_of_ne_nil b (b - (basePP + e)) _ _ g2]
          exact g4

/-- Unfolding equation of eventsUpTo. -/
theorem eventsUpTo_succ (ppy n q : ℕ) :
    eventsUpTo ppy n (q + 1) =
      eventsUpTo ppy n q + (if (q + 1) % ppy = 0 ∨ q + 1 = n then 1 else 0) := rfl

/-- eventsUpTo is monotone in the horizon. -/
theorem eventsUpTo_mono (ppy n : ℕ) : ∀ {a b : ℕ}, a ≤ b →
    eventsUpTo ppy n a ≤ eventsUpTo ppy n b := by
  intro a b h
  induction b with
  | zero =>
    have ha : a = 0 := Nat.le_zero.mp h
    subst ha
    exact le_refl _
  | succ b ihb =>
    rcases Nat.lt_or_ge a (b + 1) with h1 | h1
    · have h2 := ihb (Nat.lt_succ_iff.mp h1)
      rw [eventsUpTo_succ]
      omega
    · have h2 : a = b + 1 := le_antisymm h h1
      subst h2
      exact le_refl _

/-- Strictly below the nominal final period, eventsUpTo counts exactly the
multiples of ppy. -/
theorem eventsUpTo_lt (ppy n : ℕ) (hppy : 0 < ppy) :
    ∀ p, p < n → eventsUpTo ppy n p = p / ppy := by
  intro p
  induction p with
  | zero =>
    intro _
    simp [eventsUpTo]
  | succ p ihp =>
    intro hlt
    rw [eventsUpTo_succ, ihp (by omega)]
    have hne : p + 1 ≠ n := by omega
    by_cases hdvd : (p + 1) % ppy = 0
    · rw [if_pos (Or.inl hdvd), Nat.succ_div, if_pos (Nat.dvd_of_mod_eq_zero hdvd)]
    · rw [if_neg (by tauto), Nat.succ_div,
        if_neg (fun hd => hdvd (Nat.mod_eq_zero_of_dvd hd))]

/-- At the nominal final period n the number of scheduled repayment events
equals the annual repayment count of the source: full years plus one extra
when the term has a remainder of periods. -/
theorem eventsUpTo_at_final (ppy n : ℕ) (hppy : 0 < ppy) (hn : 0 < n) :
    eventsUpTo ppy n n = max 1 (n / ppy + if 0 < n % ppy then 1 else 0) := by
  obtain ⟨m, rfl⟩ : ∃ m, n = m + 1 := ⟨n - 1, by omega⟩
  rw [eventsUpTo_succ, eventsUpTo_lt ppy (m + 1) hppy m (by omega),
    if_pos (Or.inr rfl)]
  by_cases hdvd : (m + 1) % ppy = 0
  · have h1 : 1 ≤ (m + 1) / ppy :=
      (Nat.one_le_div_iff hppy).mpr (Nat.le_of_dvd hn (Nat.dvd_of_mod_eq_zero hdvd))
    have h2 : (m + 1) / ppy = m / ppy + 1 := by
      rw [Nat.succ_div, if_pos (Nat.dvd_of_mod_eq_zero hdvd)]
    rw [hdvd]
    norm_num
    rw [h2]
    exact (max_eq_right (Nat.succ_le_succ (Nat.zero_le _))).symm
  · have h2 : (m + 1) / ppy = m / ppy := by
      rw [Nat.succ_div, if_neg (fun hd => hdvd (Nat.mod_eq_zero_of_dvd hd))]
      omega
    have h3 : 0 < (m + 1) % ppy := Nat.pos_of_ne_zero hdvd
    rw [if_pos h3, h2]
    exact (max_eq_right (Nat.succ_le_succ (Nat.zero_le _))).symm

/-- At an event period with the planned amount at least the balance, the
interest only principal portion clears the balance exactly. -/
theorem io_balance2_event_big (planned e b : ℚ) (q n ppy : ℕ)
    (hevent : q % ppy = 0 ∨ q = n) (hge : b ≤ planned) :
    max 0 (b - ioPP planned e b q n ppy) = 0 := by
  have hpp1 : ioScheduledPP planned b q n ppy = b := by
    rw [ioScheduledPP, if_pos hevent]
    exact min_eq_right hge
  rw [ioPP, hpp1]
  rw [if_neg (fun hc => absurd hc.2 (by simp))]
  simp

/-- At an event period with the planned amount below the balance, the next
clamped balance drops by at least the planned amount. -/
theorem io_balance2_event_small (planned e b : ℚ) (q n ppy : ℕ)
    (hevent : q % ppy = 0 ∨ q = n) (hlt : planned < b) :
    max 0 (b - ioPP planned e b q n ppy) ≤ b - planned := by
  have hpp1 : ioScheduledPP planned b q n ppy = planned := by
    rw [ioScheduledPP, if_pos hevent]
    exact min_eq_left hlt.le
  rw [ioPP, hpp1]
  split_ifs with hc
  · have h2 : (0:ℚ) ≤ min e (b - planned) := le_min hc.1.le (by linarith)
    exact max_le (by linarith) (by linarith)
  · exact max_le (by linarith) (by linarith)

/-- The interest only loop finishes with a payoff whenever the fuel window
still contains enough scheduled repayment events: the invariant bounds the
balance by planned times the number of outstanding events. -/
theorem ioLoop_payoff (rate planned e : ℚ) (n ppy : ℕ) (arc : ℕ)
    (hpl : 0 < planned) :
    ∀ (fuel : ℕ) (b : ℚ) (period : ℕ) (ti tp : ℚ),
      0 < b →
      b ≤ ((arc : ℚ) - (eventsUpTo ppy n period : ℚ)) * planned →
      arc ≤ eventsUpTo ppy n (period + fuel) →
      GoodRun b (ioLoop rate planned e n ppy fuel b period ti tp) := by
  intro fuel
  induction fuel with
  | zero =>
    intro b period ti tp hb hinv hev
    exfalso
    rw [Nat.add_zero] at hev
    have hc : (arc : ℚ) ≤ (eventsUpTo ppy n period : ℚ) := by exact_mod_cast hev
    nlinarith
  | succ fuel ih =>
    intro b period ti tp hb hinv hev
    rw [ioLoop, if_pos hb]
    dsimp only
    have hIH : ∀ b2 : ℚ, 0 < b2 →
        b2 ≤ ((arc : ℚ) - (eventsUpTo ppy n (period + 1) : ℚ)) * planned →
        GoodRun b2 (ioLoop rate planned e n ppy fuel b2 (period + 1)
          (ti + periodInterest rate b)
          (tp + (periodInterest rate b + ioPP planned e b (period + 1) n ppy))) := by
      intro b2 h1 h2
      refine ih b2 (period + 1) (ti + periodInterest rate b)
        (tp + (periodInterest rate b + ioPP planned e b (period + 1) n ppy)) h1 h2 ?_
      have : period + 1 + fuel = period + (fuel + 1) := by omega
      rw [this]
      exact hev
    by_cases hevent : (period + 1) % ppy = 0 ∨ (period + 1) = n
    · by_cases hge : b ≤ planned
      · rw [io_balance2_event_big planned e b (period + 1) n ppy hevent hge,
          if_pos (by norm_num : (0:ℚ) ≤ 1/100)]
        exact ⟨rfl, by simp, by rw [lastBalD_singleton], by rw [lastBalD_singleton]; norm_num⟩
      · have hlt : planned < b := not_le.mp hge
        have hdrop := io_balance2_event_small planned e b (period + 1) n ppy hevent hlt
        by_cases hbr : max 0 (b - ioPP planned e b (period + 1) n ppy) ≤ 1/100
        · rw [if_pos hbr]
          exact ⟨rfl, by simp, by rw [lastBalD_singleton]; exact le_max_left 0 _,
            by rw [lastBalD_singleton]; exact hbr⟩
        · rw [if_neg hbr]
          have hb2pos : 0 < max 0 (b - ioPP planned e b (period + 1) n ppy) := by
            have := not_le.mp hbr
            linarith
          have hEq : (eventsUpTo ppy n (period + 1) : ℚ) =
              (eventsUpTo ppy n period : ℚ) + 1 := by
            rw [eventsUpTo_succ, if_pos hevent]
            push_cast
            ring
          have hinv2 : max 0 (b - ioPP planned e b (period + 1) n ppy) ≤
              ((arc : ℚ) - (eventsUpTo ppy n (period + 1) : ℚ)) * planned := by
            rw [hEq]
            nlinarith [hdrop]
          obtain ⟨g1, g2, g3, g4⟩ := hIH _ hb2pos hinv2
          refine ⟨g1, by simp, ?_, ?_⟩
          · rw [lastBalD_cons_of_ne_nil b _ _ _ g2]
            exact g3
          · rw [lastBalD_cons_of_ne_nil b _ _ _ g2]
            exact g4
    · have hsame : eventsUpTo ppy n (period + 1) = eventsUpTo ppy n period := by
        rw [eventsUpTo_succ, if_neg hevent]
        omega
      have hb2le : max 0 (b - ioPP planned e b (period + 1) n ppy) ≤ b :=
        clampedBalance_le _ _ hb.le (ioPP_nonneg planned e b (period + 1) n ppy hpl.le hb.le)
      by_cases hbr : max 0 (b - ioPP planned e b (period + 1) n ppy) ≤ 1/100
      · rw [if_pos hbr]
        exact ⟨rfl, by simp, by rw [lastBalD_singleton]; exact le_max_left 0 _,
          by rw [lastBalD_singleton]; exact hbr⟩
      · rw [if_neg hbr]
        have hb2pos : 0 < max 0 (b - ioPP planned e b (period + 1) n ppy) := by
          have := not_le.mp hbr
          linarith
        have hinv2 : max 0 (b - ioPP planned e b (period + 1) n ppy) ≤
            ((arc : ℚ) - (eventsUpTo ppy n (period + 1) : ℚ)) * planned := by
          rw [hsame]
          linarith
        obtain ⟨g1, g2, g3, g4⟩ := hIH _ hb2pos hinv2
        refine ⟨g1, by simp, ?_, ?_⟩
        · rw [lastBalD_cons_of_ne_nil b _ _ _ g2]
          exact g3
        · rw [lastBalD_cons_of_ne_nil b _ _ _ g2]
          exact g4

/-- totalPeriods is at least 1 thanks to the Math.max with 1. -/
theorem totalPeriods_pos (p : LoanParams) : 1 ≤ totalPeriods p := by
  rw [totalPeriods]
  have h : (1:ℤ) ≤ max 1 (jsRound (p.years * (p.paymentsPerYear : ℚ))) := le_max_left _ _
  omega

/-- The periodic rate of a parameter set with nonnegative annual rate is
nonnegative. -/
theorem periodicRate_nonneg (p : LoanParams) (h : 0 ≤ p.annualRate) :
    0 ≤ periodicRate p := by
  rw [periodicRate]
  split_ifs with h1
  · exact div_nonneg (div_nonneg h1.le (by norm_num)) (Nat.cast_nonneg _)
  · exact le_refl 0

/-- The annuity identity of the base payment: with a positive periodic rate
r over n periods, basePayment * ((1+r)^n - 1) = principal * r * (1+r)^n. -/
theorem basePayment_identity (p : LoanParams) (hr : 0 < periodicRate p) :
    basePaymentOf p * ((1 + periodicRate p) ^ totalPeriods p - 1) =
      p.principal * periodicRate p * (1 + periodicRate p) ^ totalPeriods p := by
  have hn : totalPeriods p ≠ 0 := by
    have := totalPeriods_pos p
    omega
  have hA1 : 1 < (1 + periodicRate p) ^ totalPeriods p :=
    one_lt_pow (by linarith) hn
  have hA0 : (0:ℚ) < (1 + periodicRate p) ^ totalPeriods p := by positivity
  have hinv : ((1 + periodicRate p) ^ totalPeriods p)⁻¹ < 1 := by
    rw [inv_lt_one_iff₀]
    right
    exact hA1
  have hden : (1:ℚ) - ((1 + periodicRate p) ^ totalPeriods p)⁻¹ ≠ 0 := by linarith
  rw [basePaymentOf, if_neg hr.ne', zpow_neg, zpow_natCast]
  have hden2 : (1 + periodicRate p) ^ totalPeriods p - 1 ≠ 0 := by linarith
  have hrw : (1:ℚ) - ((1 + periodicRate p) ^ totalPeriods p)⁻¹ =
      ((1 + periodicRate p) ^ totalPeriods p - 1) /
        (1 + periodicRate p) ^ totalPeriods p := by
    field_simp
  rw [hrw, div_div_eq_mul_div, div_mul_cancel₀ _ hden2]

/-- The base payment of a positive principal is positive. -/
theorem basePayment_pos (p : LoanParams) (hP : 0 < p.principal)
    (hr0 : 0 ≤ periodicRate p) : 0 < basePaymentOf p := by
  rcases eq_or_lt_of_le hr0 with h0 | hpos
  · rw [basePaymentOf, if_pos h0.symm]
    have hn : (0:ℚ) < (totalPeriods p : ℚ) := by
      have h := totalPeriods_pos p
      exact_mod_cast Nat.lt_of_lt_of_le Nat.zero_lt_one h
    exact div_pos hP hn
  · have hid := basePayment_identity p hpos
    have hn : totalPeriods p ≠ 0 := by
      have := totalPeriods_pos p
      omega
    have hA1 : 1 < (1 + periodicRate p) ^ totalPeriods p :=
      one_lt_pow (by linarith) hn
    have hA0 : (0:ℚ) < (1 + periodicRate p) ^ totalPeriods p := by positivity
    nlinarith [mul_pos (mul_pos hP hpos) hA0]

/-- The base payment covers the interest accruing on the full principal. -/
theorem basePayment_ge (p : LoanParams) (hP : 0 < p.principal)
    (hr0 : 0 ≤ periodicRate p) :
    p.principal * periodicRate p ≤ basePaymentOf p := by
  rcases eq_or_lt_of_le hr0 with h0 | hpos
  · rw [basePaymentOf, if_pos h0.symm, ← h0, mul_zero]
    exact div_nonneg hP.le (Nat.cast_nonneg _)
  · have hid := basePayment_identity p hpos
    have hn : totalPeriods p ≠ 0 := by
      have := totalPeriods_pos p
      omega
    have hA1 : 1 < (1 + periodicRate p) ^ totalPeriods p :=
      one_lt_pow (by linarith) hn
    have hPr : 0 < p.principal * periodicRate p := mul_pos hP hpos
    have h2 : p.principal * periodicRate p * ((1 + periodicRate p) ^ totalPeriods p - 1) ≤
        basePaymentOf p * ((1 + periodicRate p) ^ totalPeriods p - 1) := by
      nlinarith [hid]
    exact le_of_mul_le_mul_right h2 (by linarith)

/-- The safety cap fuel 2n + 10 satisfies the geometric payoff bound of the
amortized loop on the full principal. -/
theorem amort_cap_bound (p : LoanParams) (hP : 0 < p.principal)
    (he : 0 ≤ p.extraPayment) (hpos : 0 < periodicRate p) :
    p.principal * periodicRate p * (1 + periodicRate p) ^ (totalPeriods p * 2 + 10) ≤
      (basePaymentOf p + p.extraPayment) *
        ((1 + periodicRate p) ^ (totalPeriods p * 2 + 10) - 1) := by
  have hid := basePayment_identity p hpos
  have hn : totalPeriods p ≠ 0 := by
    have := totalPeriods_pos p
    omega
  have hA1 : 1 < (1 + periodicRate p) ^ totalPeriods p :=
    one_lt_pow (by linarith) hn
  have hAB : (1 + periodicRate p) ^ totalPeriods p ≤
      (1 + periodicRate p) ^ (totalPeriods p * 2 + 10) :=
    pow_le_pow_right (by linarith) (by omega)
  have hB1 : 1 < (1 + periodicRate p) ^ (totalPeriods p * 2 + 10) :=
    lt_of_lt_of_le hA1 hAB
  have hPr : 0 < p.principal * periodicRate p := mul_pos hP hpos
  have h1 : p.principal * periodicRate p *
      (1 + periodicRate p) ^ (totalPeriods p * 2 + 10) *
      ((1 + periodicRate p) ^ totalPeriods p - 1) ≤
      p.principal * periodicRate p * (1 + periodicRate p) ^ totalPeriods p *
      ((1 + periodicRate p) ^ (totalPeriods p * 2 + 10) - 1) := by
    nlinarith [mul_nonneg hPr.le (sub_nonneg.mpr hAB)]
  have h2 : p.principal * periodicRate p * (1 + periodicRate p) ^ totalPeriods p *
      ((1 + periodicRate p) ^ (totalPeriods p * 2 + 10) - 1) =
      basePaymentOf p * ((1 + periodicRate p) ^ (totalPeriods p * 2 + 10) - 1) *
      ((1 + periodicRate p) ^ totalPeriods p - 1) := by
    rw [← hid]
    ring
  have h3 : p.principal * periodicRate p *
      (1 + periodicRate p) ^ (totalPeriods p * 2 + 10) ≤
      basePaymentOf p * ((1 + periodicRate p) ^ (totalPeriods p * 2 + 10) - 1) := by
    have hA1' : (0:ℚ) < (1 + periodicRate p) ^ totalPeriods p - 1 := by linarith
    exact le_of_mul_le_mul_right (h1.trans_eq h2) hA1'
  nlinarith [mul_nonneg he (sub_nonneg.mpr hB1.le)]

/-- The schedule of calculateAmortizedLoan is the schedule of its loop. -/
theorem amort_schedule_eq (p : LoanParams) :
    (calculateAmortizedLoan p).schedule =
      (amortLoop (periodicRate p) (basePaymentOf p + p.extraPayment)
        (totalPeriods p * 2 + 10) p.principal 0 0 0).schedule := rfl

/-- The schedule of calculateEqualPrincipalLoan is the schedule of its
loop. -/
theorem equal_schedule_eq (p : LoanParams) :
    (calculateEqualPrincipalLoan p).schedule =
      (equalLoop (periodicRate p) (p.principal / (totalPeriods p : ℚ)) p.extraPayment
        (totalPeriods p * 2 + 10) p.principal 0 0 0).schedule := rfl

/-- The schedule of calculateInterestOnlyLoan is the schedule of its loop. -/
theorem io_schedule_eq (p : LoanParams) :
    (calculateInterestOnlyLoan p).schedule =
      (ioLoop (periodicRate p) (plannedAnnualPrincipalOf p) p.extraPayment
        (totalPeriods p) p.paymentsPerYear (totalPeriods p * 2 + 10)
        p.principal 0 0 0).schedule := rfl

/-- Payoff bound of the constant speed loops: a positive principal is paid
off within 2n + 10 periods at speed principal / n + e per period. -/
theorem linear_payoff_bound (P e : ℚ) (n : ℕ) (hP : 0 < P) (he : 0 ≤ e)
    (hn : 1 ≤ n) :
    P ≤ (P / (n:ℚ) + e) * ((n * 2 + 10 : ℕ) : ℚ) := by
  have hn0 : (0:ℚ) < (n:ℚ) := by exact_mod_cast Nat.lt_of_lt_of_le Nat.zero_lt_one hn
  have hdiv : 0 < P / (n:ℚ) := div_pos hP hn0
  have hkey : P / (n:ℚ) * (2 * (n:ℚ)) = 2 * P := by
    field_simp
    ring
  push_cast
  nlinarith [mul_nonneg he (by positivity : (0:ℚ) ≤ 2 * (n:ℚ) + 10),
    mul_nonneg hdiv.le (by norm_num : (0:ℚ) ≤ 10)]

/-- For valid parameters the amortized loop finishes with a payoff. -/
theorem amortized_goodrun (p : LoanParams) (h : ValidParams p) :
    GoodRun p.principal (amortLoop (periodicRate p)
      (basePaymentOf p + p.extraPayment)
      (totalPeriods p * 2 + 10) p.principal 0 0 0) := by
  obtain ⟨hP, hr0, _, _, he, _⟩ := h
  have hrn := periodicRate_nonneg p hr0
  rcases eq_or_lt_of_le hrn with h0 | hpos
  · rw [← h0]
    apply amortLoop_payoff_zero_rate _ _ _ _ _ _ hP
    have hbp : basePaymentOf p = p.principal / (totalPeriods p : ℚ) := by
      rw [basePaymentOf, if_pos h0.symm]
    rw [hbp]
    exact linear_payoff_bound p.principal p.extraPayment (totalPeriods p) hP he
      (totalPeriods_pos p)
  · exact amortLoop_payoff_pos_rate (periodicRate p)
      (basePaymentOf p + p.extraPayment) hpos (totalPeriods p * 2 + 10)
      p.principal 0 0 0 hP (amort_cap_bound p hP he hpos)

/-- For valid parameters the equal principal loop finishes with a payoff. -/
theorem equal_goodrun (p : LoanParams) (h : ValidParams p) :
    GoodRun p.principal (equalLoop (periodicRate p)
      (p.principal / (totalPeriods p : ℚ)) p.extraPayment
      (totalPeriods p * 2 + 10) p.principal 0 0 0) := by
  obtain ⟨hP, _, _, _, he, _⟩ := h
  exact equalLoop_payoff _ _ _ _ _ _ _ _ hP
    (linear_payoff_bound p.principal p.extraPayment (totalPeriods p) hP he
      (totalPeriods_pos p))

/-- The annual repayment count times the planned annual principal is the
principal. -/
theorem arc_mul_planned (p : LoanParams) :
    (annualRepaymentCountOf p : ℚ) * plannedAnnualPrincipalOf p = p.principal := by
  have harc : 1 ≤ annualRepaymentCountOf p := le_max_left _ _
  have h0 : (annualRepaymentCountOf p : ℚ) ≠ 0 := by
    have : (0:ℚ) < (annualRepaymentCountOf p : ℚ) := by
      exact_mod_cast Nat.lt_of_lt_of_le Nat.zero_lt_one harc
    exact this.ne'
  rw [plannedAnnualPrincipalOf, mul_div_cancel₀ _ h0]

/-- For valid parameters the interest only loop finishes with a payoff. -/
theorem interestOnly_goodrun (p : LoanParams) (h : ValidParams p) :
    GoodRun p.principal (ioLoop (periodicRate p) (plannedAnnualPrincipalOf p)
      p.extraPayment (totalPeriods p) p.paymentsPerYear
      (totalPeriods p * 2 + 10) p.principal 0 0 0) := by
  obtain ⟨hP, _, _, _, _, hppy⟩ := h
  have hppy0 : 0 < p.paymentsPerYear := by rcases hppy with h | h | h <;> omega
  have hn := totalPeriods_pos p
  have harc : 1 ≤ annualRepaymentCountOf p := le_max_left _ _
  have harc0 : (0:ℚ) < (annualRepaymentCountOf p : ℚ) := by
    exact_mod_cast Nat.lt_of_lt_of_le Nat.zero_lt_one harc
  have hpl : 0 < plannedAnnualPrincipalOf p := by
    rw [plannedAnnualPrincipalOf]
    exact div_pos hP harc0
  apply ioLoop_payoff (periodicRate p) (plannedAnnualPrincipalOf p) p.extraPayment
    (totalPeriods p) p.paymentsPerYear (annualRepaymentCountOf p) hpl
    (totalPeriods p * 2 + 10) p.principal 0 0 0 hP
  · have hE0 : eventsUpTo p.paymentsPerYear (totalPeriods p) 0 = 0 := rfl
    rw [hE0]
    have := arc_mul_planned p
    push_cast
    linarith
  · have h1 : eventsUpTo p.paymentsPerYear (totalPeriods p) (totalPeriods p) =
        annualRepaymentCountOf p := by
      rw [eventsUpTo_at_final _ _ hppy0 (by omega), annualRepaymentCountOf,
        fullYearsOf, remainderPeriodsOf]
    rw [Nat.zero_add]
    calc annualRepaymentCountOf p =
        eventsUpTo p.paymentsPerYear (totalPeriods p) (totalPeriods p) := h1.symm
      _ ≤ eventsUpTo p.paymentsPerYear (totalPeriods p) (totalPeriods p * 2 + 10) :=
        eventsUpTo_mono _ _ (by omega)

/-- With zero extra payment the interest only principal portion is just the
scheduled portion. -/
theorem ioPP_zero_extra (planned b : ℚ) (q n ppy : ℕ) :
    ioPP planned 0 b q n ppy = ioScheduledPP planned b q n ppy := by
  rw [ioPP, if_neg]
  intro hc
  exact lt_irrefl 0 hc.1

/-- With zero extra payment the interest only loop follows the planned
schedule exactly: starting from a balance equal to principal minus the
events passed so far times the planned amount, every recorded entry with a
nonzero principal portion sits at an end of year or is the final entry of
the schedule. -/
theorem ioLoop_principal_events (rate planned : ℚ) (n ppy : ℕ) (arc : ℕ)
    (hpl : 0 < planned) (harc : eventsUpTo ppy n n = arc) :
    ∀ (fuel : ℕ) (b : ℚ) (period : ℕ) (ti tp : ℚ),
      0 < b →
      b = ((arc : ℚ) - (eventsUpTo ppy n period : ℚ)) * planned →
      ∀ x ∈ (ioLoop rate planned 0 n ppy fuel b period ti tp).schedule,
        x.principal ≠ 0 →
        x.period % ppy = 0 ∨
          x.period = ((ioLoop rate planned 0 n ppy fuel b period ti tp).schedule.getLastD
            ⟨0, 0, 0, 0, 0⟩).period := by
  intro fuel
  induction fuel with
  | zero =>
    intro b period ti tp hb hinv
    simp [ioLoop]
  | succ fuel ih =>
    intro b period ti tp hb hinv
    rw [ioLoop, if_pos hb]
    dsimp only
    rw [ioPP_zero_extra]
    by_cases hevent : (period + 1) % ppy = 0 ∨ (period + 1) = n
    · have hpp : ioScheduledPP planned b (period + 1) n ppy = min planned b := by
        rw [ioScheduledPP, if_pos hevent]
      rw [hpp]
      rcases le_total b planned with hble | hplo
      · rw [min_eq_right hble]
        have hb2 : max 0 (b - b) = 0 := by simp
        rw [hb2, if_pos (by norm_num : (0:ℚ) ≤ 1/100)]
        intro x hx hpx
        rw [List.mem_singleton] at hx
        subst hx
        right
        rfl
      · rw [min_eq_left hplo]
        have hb2 : max 0 (b - planned) = b - planned := max_eq_right (by linarith)
        rw [hb2]
        have hEq : eventsUpTo ppy n (period + 1) = eventsUpTo ppy n period + 1 := by
          rw [eventsUpTo_succ, if_pos hevent]
        have hinv2 : b - planned =
            ((arc : ℚ) - (eventsUpTo ppy n (period + 1) : ℚ)) * planned := by
          rw [hEq]
          push_cast
          rw [hinv]
          ring
        by_cases hbr : b - planned ≤ 1/100
        · rw [if_pos hbr]
          intro x hx hpx
          rw [List.mem_singleton] at hx
          subst hx
          right
          rfl
        · rw [if_neg hbr]
          have hb2pos : 0 < b - planned := by
            have := not_le.mp hbr
            linarith
          have hmod : (period + 1) % ppy = 0 := by
            rcases hevent with hmod | hqn
            · exact hmod
            · exfalso
              have hEn : (eventsUpTo ppy n (period + 1) : ℚ) = (arc : ℚ) := by
                rw [hqn, harc]
              rw [hEn] at hinv2
              have hzero : b - planned = 0 := by
                rw [hinv2]
                ring
              linarith
          have hIH := ih (b - planned) (period + 1) (ti + periodInterest rate b)
            (tp + (periodInterest rate b + planned)) hb2pos hinv2
          rcases hrest : (ioLoop rate planned 0 n ppy fuel (b - planned) (period + 1)
              (ti + periodInterest rate b)
              (tp + (periodInterest rate b + planned))).schedule with _ | ⟨y, t⟩
          · intro x hx hpx
            rw [List.mem_cons] at hx
            rcases hx with hxe | hxr
            · subst hxe
              exact Or.inl hmod
            · exact absurd hxr (List.not_mem_nil x)
          · rw [hrest] at hIH
            intro x hx hpx
            rw [List.mem_cons] at hx
            rcases hx with hxe | hxr
            · subst hxe
              exact Or.inl hmod
            · rcases hIH x hxr hpx with h1 | h2
              · exact Or.inl h1
              · right
                simp only [List.getLastD_cons] at h2 ⊢
                exact h2
    · have hpp : ioScheduledPP planned b (period + 1) n ppy = 0 := by
        rw [ioScheduledPP, if_neg hevent]
      rw [hpp]
      have hb2 : max 0 (b - 0) = b := by
        rw [sub_zero]
        exact max_eq_right hb.le
      rw [hb2]
      have hEq : eventsUpTo ppy n (period + 1) = eventsUpTo ppy n period := by
        rw [eventsUpTo_succ, if_neg hevent]
        omega
      have hinv2 : b = ((arc : ℚ) - (eventsUpTo ppy n (period + 1) : ℚ)) * planned := by
        rw [hEq]
        exact hinv
      by_cases hbr : b ≤ 1/100
      · rw [if_pos hbr]
        intro x hx hpx
        rw [List.mem_singleton] at hx
        subst hx
        exact absurd rfl hpx
      · rw [if_neg hbr]
        have hIH := ih b (period + 1) (ti + periodInterest rate b)
          (tp + (periodInterest rate b + 0)) hb hinv2
        rcases hrest : (ioLoop rate planned 0 n ppy fuel b (period + 1)
            (ti + periodInterest rate b)
            (tp + (periodInterest rate b + 0))).schedule with _ | ⟨y, t⟩
        · intro x hx hpx
          rw [List.mem_cons] at hx
          rcases hx with hxe | hxr
          · subst hxe
            exact absurd rfl hpx
          · exact absurd hxr (List.not_mem_nil x)
        · rw [hrest] at hIH
          intro x hx hpx
          rw [List.mem_cons] at hx
          rcases hx with hxe | hxr
          · subst hxe
            exact absurd rfl hpx
          · rcases hIH x hxr hpx with h1 | h2
            · exact Or.inl h1
            · right
              simp only [List.getLastD_cons] at h2 ⊢
              exact h2

/-- Parameter set of the concrete amortized extra payment claim. -/
def c3Input : LoanParams := ⟨100000, 5, 1, 12, "amortized", 5000⟩

/-- A parameter set with a negative extra payment, outside the validated
domain, on which the amortized period loop reaches the safety iteration cap
while the balance keeps growing. -/
def capInput : LoanParams := ⟨1000, 0, 1, 12, "amortized", -1000⟩

/-- A valid parameter set with a tiny principal on which the first payment
leaves a positive residue at or below the payoff epsilon. -/
def residueInput : LoanParams := ⟨1/200, 0, 1, 12, "amortized", 0⟩

/-- C8: the calculation is a pure deterministic function of its parameter
set: two submit events with equal parameters yield equal calculation
results regardless of the engine state retained from prior invocations, and
the result is exactly the value of the pure dispatch function. -/
theorem c8_pure_deterministic (s1 s2 : EngineState) (p : LoanParams) :
    (submitCalc s1 p).1 = (submitCalc s2 p).1 ∧
      (submitCalc s1 p).1 = calculateLoan p :=
  ⟨rfl, rfl⟩

/-- C10: any method value other than the equal principal and interest only
enumerants dispatches to the amortized algorithm on the same parameters;
the engine has no rejection path for unrecognized method strings. -/
theorem c10_method_dispatch (p : LoanParams)
    (h1 : p.method ≠ methodEqualPrincipal) (h2 : p.method ≠ methodInterestOnly) :
    calculateLoan p = calculateAmortizedLoan p := by
  simp [calculateLoan, h1, h2]

/-- C10 witness: an unrecognized method string falls through to the
amortized algorithm. -/
theorem c10_method_dispatch_witness :
    ("fancy" ≠ methodEqualPrincipal ∧ "fancy" ≠ methodInterestOnly) ∧
      calculateLoan ⟨100000, 5, 1, 12, "fancy", 0⟩ =
        calculateAmortizedLoan ⟨100000, 5, 1, 12, "fancy", 0⟩ :=
  ⟨⟨by decide, by decide⟩, c10_method_dispatch _ (by decide) (by decide)⟩

/-- C1: evaluating the engine at a parameter set that drives the period loop
to the safety cap with the balance still positive: the engine returns an
ordinary CalcResult whose schedule is silently truncated at the cap
(totalPeriods * 2 + 10 = 34 entries) with a remaining balance strictly above
the payoff epsilon, indistinguishable in shape from a successful payoff; no
distinct non convergence failure is reported. -/
theorem c1_cap_reached_returns_plain_result :
    (calculateLoan capInput).schedule.length = totalPeriods capInput * 2 + 10 ∧
      1/100 < lastBalD capInput.principal (calculateLoan capInput).schedule ∧
      (calculateLoan capInput).summary.payoffLabel = formatPayoffTime 34 12 := by
  decide

/-- C3 counterexample: with principal 100000, annual rate 5, one year,
monthly payments and extra payment 5000, the amortized schedule does not
have length 1: the base payment is about 8560.75, so the payment with extra,
about 13560.75, is far below the first period balance plus interest and no
cap to the full balance occurs in period 1. -/
theorem c3_schedule_not_single :
    (calculateAmortizedLoan c3Input).schedule.length ≠ 1 := by
  decide

/-- C3 amended: that parameter set pays off in 8 periods: the schedule has
length 8 and the final entry records remaining balance exactly 0. -/
theorem c3_payoff_in_eight_periods :
    (calculateAmortizedLoan c3Input).schedule.length = 8 ∧
      lastBalD c3Input.principal (calculateAmortizedLoan c3Input).schedule = 0 := by
  decide

/-- C2 counterexample: a valid parameter set (principal 1/200, zero rate,
one year, monthly payments) whose final schedule entry records the positive
residue balance 11/2400 rather than exactly 0: the entry is pushed onto the
schedule before the loop clamps its balance variable to 0. -/
theorem c2_last_balance_not_zero :
    ValidParams residueInput ∧
      lastBalD residueInput.principal (calculateLoan residueInput).schedule ≠ 0 := by
  decide

/-- The accumulator identity lifted to calculateAmortizedLoan. -/
theorem amortized_paid_interest (p : LoanParams) :
    (calculateAmortizedLoan p).summary.totalPaid -
        (calculateAmortizedLoan p).summary.totalInterest =
      sumPrincipal (calculateAmortizedLoan p).schedule := by
  have h := amortLoop_paid_interest (periodicRate p) (basePaymentOf p + p.extraPayment)
    (totalPeriods p * 2 + 10) p.principal 0 0 0
  simpa [calculateAmortizedLoan] using h

/-- The accumulator identity lifted to calculateEqualPrincipalLoan. -/
theorem equal_paid_interest (p : LoanParams) :
    (calculateEqualPrincipalLoan p).summary.totalPaid -
        (calculateEqualPrincipalLoan p).summary.totalInterest =
      sumPrincipal (calculateEqualPrincipalLoan p).schedule := by
  have h := equalLoop_paid_interest (periodicRate p)
    (p.principal / (totalPeriods p : ℚ)) p.extraPayment
    (totalPeriods p * 2 + 10) p.principal 0 0 0
  simpa [calculateEqualPrincipalLoan] using h

/-- The accumulator identity lifted to calculateInterestOnlyLoan. -/
theorem interestOnly_paid_interest (p : LoanParams) :
    (calculateInterestOnlyLoan p).summary.totalPaid -
        (calculateInterestOnlyLoan p).summary.totalInterest =
      sumPrincipal (calculateInterestOnlyLoan p).schedule := by
  have h := ioLoop_paid_interest (periodicRate p) (plannedAnnualPrincipalOf p)
    p.extraPayment (totalPeriods p) p.paymentsPerYear
    (totalPeriods p * 2 + 10) p.principal 0 0 0
  simpa [calculateInterestOnlyLoan] using h

/-- C7: for every valid parameter set and every method, the reported
totalPaid equals totalInterest plus the sum of the principal portions of the
schedule, within the 1/100 epsilon (in the exact model the identity is
exact). -/
theorem c7_total_paid_decomposition (p : LoanParams) (h : ValidParams p) :
    |(calculateLoan p).summary.totalPaid -
        ((calculateLoan p).summary.totalInterest +
          sumPrincipal (calculateLoan p).schedule)| ≤ 1/100 := by
  have key : (calculateLoan p).summary.totalPaid -
      ((calculateLoan p).summary.totalInterest +
        sumPrincipal (calculateLoan p).schedule) = 0 := by
    rw [calculateLoan]
    split_ifs
    · have := equal_paid_interest p
      linarith
    · have := interestOnly_paid_interest p
      linarith
    · have := amortized_paid_interest p
      linarith
  rw [key]
  norm_num

/-- C7 witness: the identity at a concrete valid parameter set. -/
theorem c7_total_paid_decomposition_witness :
    ValidParams ⟨100000, 5, 30, 12, "equal_principal", 100⟩ ∧
      |(calculateLoan ⟨100000, 5, 30, 12, "equal_principal", 100⟩).summary.totalPaid -
          ((calculateLoan ⟨100000, 5, 30, 12, "equal_principal", 100⟩).summary.totalInterest +
            sumPrincipal (calculateLoan ⟨100000, 5, 30, 12, "equal_principal", 100⟩).schedule)| ≤ 1/100 :=
  ⟨by decide, c7_total_paid_decomposition _ (by decide)⟩

/-- C2 (amended): for every valid parameter set and every method the
schedule is nonempty and the remaining balances are non increasing along
the schedule; the final entry records a residue balance between 0 and the
payoff epsilon 1/100 rather than exactly 0, because the entry is pushed
onto the schedule before the loop clamps its balance variable to 0. -/
theorem c2_schedule_invariants (p : LoanParams) (h : ValidParams p) :
    (calculateLoan p).schedule ≠ [] ∧
      List.Chain' (fun x y => y.balance ≤ x.balance) (calculateLoan p).schedule ∧
      0 ≤ lastBalD p.principal (calculateLoan p).schedule ∧
      lastBalD p.principal (calculateLoan p).schedule ≤ 1/100 := by
  obtain ⟨hP, hr0, hr100, hy, he, hppy⟩ := h
  have hrn := periodicRate_nonneg p hr0
  rw [calculateLoan]
  split_ifs with h1 h2
  · obtain ⟨g1, g2, g3, g4⟩ := equal_goodrun p ⟨hP, hr0, hr100, hy, he, hppy⟩
    have hpe : 0 ≤ p.principal / (totalPeriods p : ℚ) + p.extraPayment :=
      add_nonneg (div_nonneg hP.le (Nat.cast_nonneg _)) he
    have hch := (equalLoop_chains (periodicRate p)
      (p.principal / (totalPeriods p : ℚ)) p.extraPayment hrn hpe
      (totalPeriods p * 2 + 10) p.principal 0 0 0 hP.le).1.1
    rw [equal_schedule_eq]
    exact ⟨g2, hch, g3, g4⟩
  · obtain ⟨g1, g2, g3, g4⟩ := interestOnly_goodrun p ⟨hP, hr0, hr100, hy, he, hppy⟩
    have harc : 1 ≤ annualRepaymentCountOf p := le_max_left _ _
    have harc0 : (0:ℚ) < (annualRepaymentCountOf p : ℚ) := by
      exact_mod_cast Nat.lt_of_lt_of_le Nat.zero_lt_one harc
    have hpl : 0 ≤ plannedAnnualPrincipalOf p := by
      rw [plannedAnnualPrincipalOf]
      exact (div_pos hP harc0).le
    have hch := (ioLoop_balance_chain (periodicRate p) (plannedAnnualPrincipalOf p)
      p.extraPayment (totalPeriods p) p.paymentsPerYear hpl
      (totalPeriods p * 2 + 10) p.principal 0 0 0 hP.le).1
    rw [io_schedule_eq]
    exact ⟨g2, hch, g3, g4⟩
  · obtain ⟨g1, g2, g3, g4⟩ := amortized_goodrun p ⟨hP, hr0, hr100, hy, he, hppy⟩
    have hble : p.principal * periodicRate p ≤ basePaymentOf p + p.extraPayment := by
      linarith [basePayment_ge p hP hrn]
    have hch := (amortLoop_balance_chain (periodicRate p)
      (basePaymentOf p + p.extraPayment) hrn (totalPeriods p * 2 + 10)
      p.principal 0 0 0 hP.le hble).1
    rw [amort_schedule_eq]
    exact ⟨g2, hch, g3, g4⟩

/-- C2 witness: the amended invariants at a concrete valid parameter set. -/
theorem c2_schedule_invariants_witness :
    ValidParams ⟨1000, 5, 1, 12, "amortized", 0⟩ ∧
      ((calculateLoan ⟨1000, 5, 1, 12, "amortized", 0⟩).schedule ≠ [] ∧
        List.Chain' (fun x y => y.balance ≤ x.balance)
          (calculateLoan ⟨1000, 5, 1, 12, "amortized", 0⟩).schedule ∧
        0 ≤ lastBalD 1000 (calculateLoan ⟨1000, 5, 1, 12, "amortized", 0⟩).schedule ∧
        lastBalD 1000 (calculateLoan ⟨1000, 5, 1, 12, "amortized", 0⟩).schedule ≤ 1/100) :=
  ⟨by decide, c2_schedule_invariants _ (by decide)⟩

/-- C4: for every valid parameter set and every method the principal
portions of the schedule sum to the principal within the 1/100 epsilon. -/
theorem c4_sum_principal (p : LoanParams) (h : ValidParams p) :
    |sumPrincipal (calculateLoan p).schedule - p.principal| ≤ 1/100 := by
  obtain ⟨hP, hr0, hr100, hy, he, hppy⟩ := h
  rw [calculateLoan]
  split_ifs with h1 h2
  · obtain ⟨g1, g2, g3, g4⟩ := equal_goodrun p ⟨hP, hr0, hr100, hy, he, hppy⟩
    rw [equal_schedule_eq, equalLoop_sum_principal, abs_le]
    constructor <;> linarith
  · obtain ⟨g1, g2, g3, g4⟩ := interestOnly_goodrun p ⟨hP, hr0, hr100, hy, he, hppy⟩
    rw [io_schedule_eq, ioLoop_sum_principal, abs_le]
    constructor <;> linarith
  · obtain ⟨g1, g2, g3, g4⟩ := amortized_goodrun p ⟨hP, hr0, hr100, hy, he, hppy⟩
    rw [amort_schedule_eq, amortLoop_sum_principal, abs_le]
    constructor <;> linarith

/-- C4 witness: the sum property at a concrete valid parameter set. -/
theorem c4_sum_principal_witness :
    ValidParams ⟨1000, 5, 1, 12, "interest_only", 50⟩ ∧
      |sumPrincipal (calculateLoan ⟨1000, 5, 1, 12, "interest_only", 50⟩).schedule -
        1000| ≤ 1/100 :=
  ⟨by decide, c4_sum_principal _ (by decide)⟩

/-- C5: for the equal principal method with zero extra payment and a valid
parameter set, the payment sequence along the schedule is non increasing. -/
theorem c5_equal_payments_non_increasing (p : LoanParams) (h : ValidParams p)
    (hex : p.extraPayment = 0) :
    List.Chain' (fun x y => y.payment ≤ x.payment)
      (calculateEqualPrincipalLoan p).schedule := by
  obtain ⟨hP, hr0, _, _, he, _⟩ := h
  have hrn := periodicRate_nonneg p hr0
  have hpe : 0 ≤ p.principal / (totalPeriods p : ℚ) + p.extraPayment :=
    add_nonneg (div_nonneg hP.le (Nat.cast_nonneg _)) he
  rw [equal_schedule_eq]
  exact (equalLoop_chains (periodicRate p) (p.principal / (totalPeriods p : ℚ))
    p.extraPayment hrn hpe (totalPeriods p * 2 + 10) p.principal 0 0 0 hP.le).2.1

/-- C5 witness: the non increasing payments at a concrete valid parameter
set with zero extra payment. -/
theorem c5_equal_payments_non_increasing_witness :
    (ValidParams ⟨1000, 5, 1, 12, "equal_principal", 0⟩ ∧
        LoanParams.extraPayment ⟨1000, 5, 1, 12, "equal_principal", 0⟩ = 0) ∧
      List.Chain' (fun x y => y.payment ≤ x.payment)
        (calculateEqualPrincipalLoan ⟨1000, 5, 1, 12, "equal_principal", 0⟩).schedule :=
  ⟨⟨by decide, by decide⟩,
    c5_equal_payments_non_increasing _ (by decide) (by decide)⟩

/-- C6: for the interest only method with zero extra payment and a valid
parameter set, every schedule entry with a nonzero principal portion sits at
an end of year (period divisible by paymentsPerYear) or is the final entry
of the schedule; all other entries have principal portion 0. -/
theorem c6_interest_only_principal_zero (p : LoanParams) (h : ValidParams p)
    (hex : p.extraPayment = 0) :
    ∀ x ∈ (calculateInterestOnlyLoan p).schedule,
      x.principal ≠ 0 →
      x.period % p.paymentsPerYear = 0 ∨
        x.period = ((calculateInterestOnlyLoan p).schedule.getLastD
          ⟨0, 0, 0, 0, 0⟩).period := by
  obtain ⟨hP, _, _, _, _, hppy⟩ := h
  have hppy0 : 0 < p.paymentsPerYear := by rcases hppy with h | h | h <;> omega
  have hn := totalPeriods_pos p
  have harc : 1 ≤ annualRepaymentCountOf p := le_max_left _ _
  have harc0 : (0:ℚ) < (annualRepaymentCountOf p : ℚ) := by
    exact_mod_cast Nat.lt_of_lt_of_le Nat.zero_lt_one harc
  have hpl : 0 < plannedAnnualPrincipalOf p := by
    rw [plannedAnnualPrincipalOf]
    exact div_pos hP harc0
  have hEn : eventsUpTo p.paymentsPerYear (totalPeriods p) (totalPeriods p) =
      annualRepaymentCountOf p := by
    rw [eventsUpTo_at_final _ _ hppy0 (by omega), annualRepaymentCountOf,
      fullYearsOf, remainderPeriodsOf]
  have hinv : p.principal = ((annualRepaymentCountOf p : ℚ) -
      (eventsUpTo p.paymentsPerYear (totalPeriods p) 0 : ℚ)) *
      plannedAnnualPrincipalOf p := by
    have h1 : eventsUpTo p.paymentsPerYear (totalPeriods p) 0 = 0 := rfl
    rw [h1, Nat.cast_zero, sub_zero]
    exact (arc_mul_planned p).symm
  rw [io_schedule_eq, hex]
  exact ioLoop_principal_events (periodicRate p) (plannedAnnualPrincipalOf p)
    (totalPeriods p) p.paymentsPerYear (annualRepaymentCountOf p) hpl hEn
    (totalPeriods p * 2 + 10) p.principal 0 0 0 hP hinv

/-- C6 witness: the principal portion pattern at a concrete valid parameter
set with a 14 period term (one full year plus two remainder months). -/
theorem c6_interest_only_principal_zero_witness :
    (ValidParams ⟨1000, 5, 7/6, 12, "interest_only", 0⟩ ∧
        LoanParams.extraPayment ⟨1000, 5, 7/6, 12, "interest_only", 0⟩ = 0) ∧
      ∀ x ∈ (calculateInterestOnlyLoan ⟨1000, 5, 7/6, 12, "interest_only", 0⟩).schedule,
        x.principal ≠ 0 →
        x.period % 12 = 0 ∨
          x.period = ((calculateInterestOnlyLoan
            ⟨1000, 5, 7/6, 12, "interest_only", 0⟩).schedule.getLastD
              ⟨0, 0, 0, 0, 0⟩).period :=
  ⟨⟨by decide, by decide⟩,
    c6_interest_only_principal_zero _ (by decide) (by decide)⟩

/-- Joining a one element list of parts yields that part. -/
theorem joinSingle (s : String) : String.join [s] = s := by
  cases s
  rfl

/-- C9: a positive period count that is an exact multiple k * ppy of the
payment frequency formats as the whole years part alone with no remainder
part, and a period count of 0 formats as the distinct less than one period
label. -/
theorem c9_payoff_format (k ppy : ℕ) (hk : 1 ≤ k)
    (hppy : ppy = 12 ∨ ppy = 26 ∨ ppy = 52) :
    formatPayoffTime (k * ppy) ppy = toString k ++ "年" ∧
      formatPayoffTime 0 ppy = "不足一个周期" := by
  have hp : 0 < ppy := by rcases hppy with h | h | h <;> omega
  constructor
  · have h1 : k * ppy / ppy = k := Nat.mul_div_cancel k hp
    have h2 : k * ppy % ppy = 0 := Nat.mul_mod_left k ppy
    have hk0 : k ≠ 0 := by omega
    simp [formatPayoffTime, h1, h2, hk0, Nat.pos_of_ne_zero hk0, joinSingle]
  · rcases hppy with h | h | h <;> subst h <;> rfl

/-- C9 witness: 52 periods at 52 payments per year format as one year with
no remainder, and 0 periods format as the less than one period label. -/
theorem c9_payoff_format_witness :
    (1 ≤ 1 ∧ (52 = 12 ∨ 52 = 26 ∨ 52 = 52)) ∧
      formatPayoffTime (1 * 52) 52 = toString 1 ++ "年" ∧
      formatPayoffTime 0 52 = "不足一个周期" :=
  ⟨⟨by decide, by decide⟩, c9_payoff_format 1 52 (by decide) (by decide)⟩

end Loan
